import Mathlib

/-!
Shallow embedding of the limier repository's conversion engine
(florimondmanca/limier; evolutions `colon`, `deduce`, `limier`).

Python exceptions are modelled as `ExcKind × String` (class, message);
fallible code returns `Except`. Python `dict`s are modelled as
insertion-ordered association lists with insert-or-overwrite update.
String `\d` digits are modelled as ASCII `0`-`9`.
-/

namespace Limier

/-- Python exception classes appearing in the engine. -/
inductive ExcKind where
  | valueError
  | typeError
  | keyError
  | stopIteration
  | invalidOperation
  | other (s : String)
  deriving DecidableEq, Repr

/-- Result of running a piece of Python code: a value or a raised exception. -/
abbrev PyResult (α : Type) := Except (ExcKind × String) α

/-- Python values flowing through the converters.  `strSet` models a Python
set of strings (as appears in the default alias tables). -/
inductive Val where
  | str (s : String)
  | int (n : Int)
  | bool (b : Bool)
  | pyNone
  | range (lo hi : Nat)
  | strSet (elems : List String)
  deriving DecidableEq, Repr

/-- Python `str(value)` for the values we model (used in failure messages). -/
def pyStr : Val → String
  | .str s => s
  | .int n => toString n
  | .bool b => if b then "True" else "False"
  | .pyNone => "None"
  | .range lo hi => "range(" ++ toString lo ++ ", " ++ toString hi ++ ")"
  | .strSet _ => "set(...)"

/-- Association-list lookup, the model of `d[k]` / `d.get(k)` on a `dict`. -/
def alookup {α : Type} : List (String × α) → String → Option α
  | [], _ => none
  | (k, v) :: rest, n => if k = n then some v else alookup rest n

/-- Python `d[k] = v` on a dict: overwrite in place, else append (insertion
order preserved). -/
def dictSet {α : Type} : List (String × α) → String → α → List (String × α)
  | [], n, v => [(n, v)]
  | (k, w) :: rest, n, v =>
      if k = n then (k, v) :: rest else (k, w) :: dictSet rest n v

/-- The keys of a dict, in insertion order. -/
def dKeys {α : Type} (d : List (String × α)) : List String :=
  d.map Prod.fst

theorem alookup_dictSet_self {α : Type} (d : List (String × α)) (n : String) (v : α) :
    alookup (dictSet d n v) n = some v := by
  induction d with
  | nil => simp [dictSet, alookup]
  | cons hd tl ih =>
      obtain ⟨k, w⟩ := hd
      by_cases hk : k = n <;> simp [dictSet, alookup, hk, ih]

theorem alookup_dictSet_ne {α : Type} (d : List (String × α)) (n m : String) (v : α)
    (h : m ≠ n) : alookup (dictSet d n v) m = alookup d m := by
  induction d with
  | nil =>
      have h2 : ¬n = m := fun hh => h hh.symm
      simp [dictSet, alookup, h2]
  | cons hd tl ih =>
      obtain ⟨k, w⟩ := hd
      by_cases hk : k = n
      · subst hk
        have h2 : ¬k = m := fun hh => h hh.symm
        simp [dictSet, alookup, h2]
      · simp [dictSet, alookup, hk, ih]

theorem mem_dKeys_dictSet {α : Type} (d : List (String × α)) (n x : String) (v : α) :
    x ∈ dKeys (dictSet d n v) ↔ x ∈ dKeys d ∨ x = n := by
  induction d with
  | nil => simp [dictSet, dKeys]
  | cons hd tl ih =>
      obtain ⟨k, w⟩ := hd
      by_cases hk : k = n
      · subst hk
        simp [dictSet, dKeys]
        tauto
      · simp only [dictSet, hk, if_false, dKeys, List.map_cons, List.mem_cons] at *
        tauto

theorem nodup_dKeys_dictSet {α : Type} (d : List (String × α)) (n : String) (v : α)
    (h : (dKeys d).Nodup) : (dKeys (dictSet d n v)).Nodup := by
  induction d with
  | nil => simp [dictSet, dKeys]
  | cons hd tl ih =>
      obtain ⟨k, w⟩ := hd
      simp only [dKeys, List.map_cons, List.nodup_cons] at h
      by_cases hk : k = n
      · subst hk
        have hset : dictSet ((k, w) :: tl) k v = (k, v) :: tl := by simp [dictSet]
        rw [hset]
        simp only [dKeys, List.map_cons, List.nodup_cons]
        exact ⟨by simpa [dKeys] using h.1, by simpa [dKeys] using h.2⟩
      · have hk2 : k ∉ dKeys (dictSet tl n v) := by
          rw [mem_dKeys_dictSet]
          rintro (hmem | rfl)
          · exact h.1 (by simpa [dKeys] using hmem)
          · exact hk rfl
        simp only [dictSet, hk, if_false, dKeys, List.map_cons, List.nodup_cons]
        exact ⟨by simpa [dKeys] using hk2, by simpa [dKeys] using ih h.2⟩

/-! ### Converters (`limier/converters.py`) -/

/-- ASCII decimal digit, the model of the regex class `\d`. -/
def isDig (c : Char) : Bool := 48 ≤ c.toNat && c.toNat ≤ 57

/-- Numeric value of a digit character. -/
def digVal (c : Char) : Nat := c.toNat - 48

/-- Split off the longest leading run of digits (greedy `\d+`, which never
needs to backtrack here because the following pattern element cannot match a
digit). -/
def takeDigits : List Char → List Char × List Char
  | [] => ([], [])
  | c :: rest =>
      if isDig c then
        let (run, rest2) := takeDigits rest
        (c :: run, rest2)
      else ([], c :: rest)

/-- Numeric value of a big-endian digit run, as `int()` computes it. -/
def digitsVal (l : List Char) : Nat := l.foldl (fun a c => 10 * a + digVal c) 0

/-- Model of `Range.pattern.match(value)` followed by `Range.convert`: the regex
`(\d+)(?:\.{2,3}|:)(\d+)` applied with `re.match` (anchored at the start,
trailing characters ignored).  The `\.{2,3}` piece with backtracking is
equivalent to: the run of consecutive dots has length exactly 2 or 3
(4 or more dots leave a dot before the second digit run in every split). -/
def rangeMatch (s : List Char) : Option (Nat × Nat) :=
  let (d1, rest) := takeDigits s
  if d1 = [] then none
  else
    match rest with
    | ':' :: rest2 =>
        let (d2, _) := takeDigits rest2
        if d2 = [] then none else some (digitsVal d1, digitsVal d2)
    | _ =>
        let dots := rest.takeWhile (fun c => c = '.')
        let rest2 := rest.dropWhile (fun c => c = '.')
        if dots.length = 2 ∨ dots.length = 3 then
          let (d2, _) := takeDigits rest2
          if d2 = [] then none else some (digitsVal d1, digitsVal d2)
        else none

/-- A key of the `Equiv` mapping argument: a plain value or a tuple
(bulk mapping). -/
inductive EquivKey where
  | single (v : Val)
  | group (vs : List Val)

/-- Association-list lookup for `Val`-keyed dicts. -/
def vlookup {α : Type} : List (Val × α) → Val → Option α
  | [], _ => none
  | (k, v) :: rest, n => if k = n then some v else vlookup rest n

/-- Insert-or-overwrite for `Val`-keyed dicts. -/
def vSet : List (Val × Val) → Val → Val → List (Val × Val)
  | [], n, v => [(n, v)]
  | (k, w) :: rest, n, v =>
      if k = n then (k, v) :: rest else (k, w) :: vSet rest n v

/-- Model of `Equiv.__init__`: flatten the possibly-grouped mapping into one entry per
group member (`_mapping[sub_key] = value`, last write wins, insertion order;
tuple members are expanded left to right). -/
def equivFlatten (items : List (EquivKey × Val)) : List (Val × Val) :=
  items.foldl
    (fun acc kv =>
      match kv with
      | (.single k, v) => vSet acc k v
      | (.group ks, v) => ks.foldl (fun m k => vSet m k v) acc)
    []

/-- The converter variants of `limier/converters.py` as plain data.
`transform` holds the wrapped transformation as a Lean function returning a
`PyResult` (the Python callable, which may raise). -/
inductive Conv where
  | identity
  | filter (test : Val → Bool) (testName : Option String)
  | transform (transformation : Val → PyResult Val) (raisedIfInvalid : ExcKind)
  | oneOf (values : List Val)
  | equiv (mapping : List (Val × Val))
  | rangeC

/-- Build an `Equiv` converter from a possibly-grouped mapping. -/
def equivInit (items : List (EquivKey × Val)) : Conv :=
  .equiv (equivFlatten items)

/-- Model of `Filter.get_failure_message`: names the predicate when it has a
`__name__`, else falls back to `str(value)`. -/
def filterMsg (testName : Option String) (v : Val) : String :=
  match testName with
  | some n => "'" ++ pyStr v ++ "' does not satisfy '" ++ n ++ "'"
  | none => pyStr v

/-- Model of `OneOf.get_failure_message` (the join order over the Python set is
modelled as the given list order). -/
def oneOfMsg (values : List Val) (v : Val) : String :=
  "expected one of '" ++ String.intercalate ", " (values.map pyStr)
    ++ "', got '" ++ pyStr v ++ "'"

/-- The `Range.pattern` source text. -/
def rangePat : String := "(\\d+)(?:\\.\x7b2,3\x7d|:)(\\d+)"

/-- Dispatch of `__call__` for each converter variant (`limier/converters.py`).

* `identity` returns its input (colon `Identity`, `Converter.identity`).
* `filter` raises `ValueError` with the failure message when the test is
  false.
* `transform` calls the transformation, catching exactly the configured
  `raised_if_invalid` exception kind and re-raising it as
  `ValueError(str(exc))`; any other exception propagates unmodified.
* `oneOf` is `Filter` specialised to set membership.
* `equiv` looks the value up in the flattened table; a missing key
  (`KeyError`) is re-raised as `ValueError`.
* `rangeC` matches the `Range` regex and builds `range(int(g1), int(g2))`;
  a non-string input raises `TypeError` inside `re` machinery. -/
def convCall : Conv → Val → PyResult Val
  | .identity, v => .ok v
  | .filter test nm, v =>
      if test v then .ok v else .error (.valueError, filterMsg nm v)
  | .transform f k, v =>
      match f v with
      | .ok w => .ok w
      | .error (k2, m) =>
          if k2 = k then .error (.valueError, m) else .error (k2, m)
  | .oneOf values, v =>
      if values.contains v then .ok v
      else .error (.valueError, oneOfMsg values v)
  | .equiv mp, v =>
      match vlookup mp v with
      | some w => .ok w
      | none => .error (.valueError, "no equivalent for '" ++ pyStr v ++ "'")
  | .rangeC, v =>
      match v with
      | .str s =>
          match rangeMatch s.data with
          | some (a, b) => .ok (.range a b)
          | none =>
              .error (.valueError,
                "did not match '" ++ rangePat ++ "': '" ++ s ++ "'")
      | _ => .error (.typeError, "expected string or bytes-like object")

/-- The `bool` entry of `limier/aliases.py` `ALIASES`: note the dict maps the
*output* value to a *set* of raw strings, which is the `colon.Mapping`
convention, while `limier.Equiv` flattens keys and looks raw inputs up among
the keys. -/
def limierBoolAlias : Conv :=
  equivInit
    [(.single (.bool true), .strSet ["true", "True", "yes", "y", "1"]),
     (.single (.bool false), .strSet ["false", "False", "no", "n", "0"])]

/-- The boolean equivalence table written the way `Equiv`'s own documentation
prescribes (raw inputs as grouped keys); used to state what the spec's
boolean example requires of `Equiv` itself. -/
def docBoolEquiv : Conv :=
  equivInit
    [(.group [.str "true", .str "True", .str "yes", .str "y", .str "1"],
      .bool true),
     (.group [.str "false", .str "False", .str "no", .str "n", .str "0"],
      .bool false)]

example : convCall .rangeC (.str "1:5") = .ok (.range 1 5) := rfl
example : convCall .rangeC (.str "1..5") = .ok (.range 1 5) := rfl
example : convCall .rangeC (.str "1...5") = .ok (.range 1 5) := rfl
example : (convCall .rangeC (.str "1....5")).isOk = false := rfl
example : convCall limierBoolAlias (.str "true")
    = .error (.valueError, "no equivalent for 'true'") := rfl
example : convCall docBoolEquiv (.str "yes") = .ok (.bool true) := rfl

/-! ### Registry (`limier/registry.py`, `colon/registry.py`) -/

/-- Hashable alias keys.  The concrete aliases of `aliases.py` get named
constructors; `kOther` stands for any further hashable key.  Keys are
modelled as abstract tags: calling one as a function is `keyCall` below. -/
inductive Key where
  | kBin
  | kOct
  | kDecimal
  | kBool
  | kNone
  | kRange
  | kStrIs (attr : String)
  | kOther (n : Nat)
  deriving DecidableEq, Repr

/-- A registry's alias table: insertion-ordered dict from key to converter. -/
abbrev Registry := List (Key × Conv)

/-- Dict lookup on the alias table. -/
def regLookup : Registry → Key → Option Conv
  | [], _ => none
  | (k, c) :: rest, a => if k = a then some c else regLookup rest a

/-- Calling an alias key itself as a function.  The abstract keys of this
embedding are not callable, which Python reports as a `TypeError`; this is
all the claims need (registered converters carry their own behavior). -/
def keyCall (k : Key) (_ : Val) : PyResult Val :=
  .error (.typeError, "'" ++ toString (repr k) ++ "' object is not callable")

/-- The Python-level union "a Converter, or anything else used as a key"
that `get`/`chain` traffic in. -/
inductive CoK where
  | conv (c : Conv)
  | key (k : Key)

/-- Discriminator: is this union member a `Conv`? -/
def CoK.isConv : CoK → Bool
  | .conv _ => true
  | .key _ => false

/-- Calling a union member: a converter runs `__call__`, a raw key is called
as a function. -/
def cokCall : CoK → Val → PyResult Val
  | .conv c, v => convCall c v
  | .key k, v => keyCall k v

/-- Model of `limier.Registry.get`: `self._aliases.get(alias, alias)` — the registered
converter, or the alias itself (unwrapped) when unregistered.  A `Conv`
passed as the alias is never a dict key here, so it comes back unchanged. -/
def limierGet (reg : Registry) : CoK → CoK
  | .conv c => .conv c
  | .key k =>
      match regLookup reg k with
      | some c => .conv c
      | none => .key k

/-- Model of `colon.Registry.get`: the registered converter, or `Transform(annotation)`
wrapping the key as an ad-hoc converter (default caught kind `ValueError`). -/
def colonGet (reg : Registry) (k : Key) : Conv :=
  match regLookup reg k with
  | some c => c
  | none => .transform (keyCall k) .valueError

/-- Model of `limier.Registry.chain`: resolve every argument through `get`, then wrap
`reduce(lambda val, converter: converter(val), converters, value)` in a
`Transform` (whose default caught kind is `ValueError`). -/
def limierChain (reg : Registry) (xs : List CoK) : Conv :=
  let converters := xs.map (limierGet reg)
  .transform
    (fun v => converters.foldl (fun acc ck => acc.bind (cokCall ck)) (.ok v))
    .valueError

/-! ### The `deduce` class binder (`deduce/decorators.py`)

The wrap-time plan: `positional_converters` is the ordered list of
`(name, converter)` pairs for required parameters; `keyword_converters` is a
`defaultdict` (default `Converter.identity`) holding the annotated optional
parameters, modelled as an insertion-ordered association list.  Subscripting
the `defaultdict` with a missing name *inserts* `(name, identity)`. -/

structure DeducePlan where
  positional : List (String × Conv)
  keyword : List (String × Conv)

/-- An exception escaping a wrapped call: either the aggregated
`ConversionError` (with its `errors` dict) or an ordinary exception. -/
inductive PyExc where
  | convError (errors : List (String × String))
  | exc (k : ExcKind) (m : String)

/-- Model of `defaultdict.__getitem__`: return the stored converter, or insert and
return `Converter.identity` for a missing name. -/
def kwGetDefault (st : List (String × Conv)) (n : String) :
    Conv × List (String × Conv) :=
  match alookup st n with
  | some c => (c, st)
  | none => (.identity, st ++ [(n, .identity)])

/-- The positional loop of `deduce.convert`: the i-th positional value uses
`positional_converters[i]`, and on `IndexError` the next pair of the
`fallbacks` iterator over `keyword_converters.items()` (raising
`StopIteration` uncaught when exhausted).  A `ValueError` from a converter is
recorded in `errors`; any other exception propagates. -/
def convertArgs :
    List (String × Conv) → List (String × Conv) → List Val →
    List Val → List (String × String) →
    Except (ExcKind × String) (List Val × List (String × String))
  | _, _, [], acc, errs => .ok (acc, errs)
  | pos, fb, v :: rest, acc, errs =>
      match pos with
      | (n, c) :: posRest =>
          (match convCall c v with
           | .ok w => convertArgs posRest fb rest (acc ++ [w]) errs
           | .error (k, m) =>
               if k = .valueError then
                 convertArgs posRest fb rest acc (dictSet errs n m)
               else .error (k, m))
      | [] =>
          match fb with
          | (n, c) :: fbRest =>
              (match convCall c v with
               | .ok w => convertArgs [] fbRest rest (acc ++ [w]) errs
               | .error (k, m) =>
                   if k = .valueError then
                     convertArgs [] fbRest rest acc (dictSet errs n m)
                   else .error (k, m))
          | [] => .error (.stopIteration, "")

/-- The keyword loop of `deduce.convert`: each supplied keyword is resolved
through the `defaultdict` (inserting identity for missing names) and
converted under the same collect-all policy.  Returns the outcome together
with the final state of `keyword_converters`. -/
def convertKwargs :
    List (String × Conv) → List (String × Val) →
    List (String × Val) → List (String × String) →
    Except (ExcKind × String) (List (String × Val) × List (String × String))
      × List (String × Conv)
  | st, [], acc, errs => (.ok (acc, errs), st)
  | st, (n, v) :: rest, acc, errs =>
      let (c, st') := kwGetDefault st n
      match convCall c v with
      | .ok w => convertKwargs st' rest (dictSet acc n w) errs
      | .error (k, m) =>
          if k = .valueError then convertKwargs st' rest acc (dictSet errs n m)
          else (.error (k, m), st')

/-- Model of `deduce.convert(args, kwargs)`: both loops, then raise `ConversionError`
if the accumulated `errors` dict is non-empty.  The second component is the
state of `self.keyword_converters` after the call (the shared `defaultdict`,
mutated by keyword lookups). -/
def deduceConvert (plan : DeducePlan) (args : List Val)
    (kwargs : List (String × Val)) :
    Except PyExc (List Val × List (String × Val)) × List (String × Conv) :=
  match convertArgs plan.positional plan.keyword args [] [] with
  | .error (k, m) => (.error (.exc k m), plan.keyword)
  | .ok (cargs, errs) =>
      match convertKwargs plan.keyword kwargs [] errs with
      | (.error (k, m), st) => (.error (.exc k m), st)
      | (.ok (ckwargs, errs'), st) =>
          if errs' = [] then (.ok (cargs, ckwargs), st)
          else (.error (.convError errs'), st)

/-- Model of `deduce.__call__`: convert, re-raise `ConversionError` unchanged, else
invoke the underlying function on the converted values.  `func` is the
wrapped function's body, which may itself raise. -/
def deduceCall (plan : DeducePlan)
    (func : List Val → List (String × Val) → PyResult Val)
    (args : List Val) (kwargs : List (String × Val)) :
    Except PyExc Val × List (String × Conv) :=
  match deduceConvert plan args kwargs with
  | (.ok (cargs, ckwargs), st) =>
      (match func cargs ckwargs with
       | .ok r => (.ok r, st)
       | .error (k, m) => (.error (.exc k m), st))
  | (.error e, st) => (.error e, st)

/-! ### The `limier` binder (`limier/decorators.py`)

`deduce(func, detective)` introspects the signature once, builds a dict
`converters = {name: detective.retrieve(annotation)}` over the annotated
parameters, and at call time does `sig.bind(*args, **kwargs)` +
`apply_defaults()`, converts each annotated bound argument catching
`ValueError` into an `errors` dict, raises `ConversionError` when that dict
is non-empty, and otherwise calls the function on the converted bound
arguments. -/

/-- A declared parameter: name, optional annotation key, optional default
(all parameters are positional-or-keyword, matching the sources, which do
not support variadic parameters). -/
structure LParam where
  name : String
  ann : Option Key
  dflt : Option Val

/-- Model of `Detective.retrieve` (`limier/clues.py`): `self._records.get(clue, clue)`
— the recorded converter or the clue itself. -/
def retrieve (d : Registry) (k : Key) : CoK :=
  match regLookup d k with
  | some c => .conv c
  | none => .key k

/-- The `converters` dict of `limier.deduce`: annotated parameters in
declaration order, each resolved through `retrieve`. -/
def buildConverters (params : List LParam) (d : Registry) :
    List (String × CoK) :=
  params.filterMap fun p => p.ann.map fun a => (p.name, retrieve d a)

/-- Assign a value to every parameter, the combined effect of a successful
`sig.bind` and `apply_defaults`: positional values fill parameters in
declaration order, then supplied keywords, then declared defaults; a
parameter left without a value is a missing required argument
(`TypeError` from `bind`). -/
def assignParams :
    List LParam → List Val → List (String × Val) →
    Except String (List (String × Val))
  | [], _, _ => .ok []
  | p :: ps, v :: vs, kwargs =>
      (assignParams ps vs kwargs).map (fun r => (p.name, v) :: r)
  | p :: ps, [], kwargs =>
      match alookup kwargs p.name with
      | some v => (assignParams ps [] kwargs).map (fun r => (p.name, v) :: r)
      | none =>
          match p.dflt with
          | some d => (assignParams ps [] kwargs).map (fun r => (p.name, d) :: r)
          | none => .error ("missing a required argument: '" ++ p.name ++ "'")

/-- Model of `sig.bind(*args, **kwargs)` plus `apply_defaults()`: the pre-checks
(`too many positional arguments`, unexpected keyword, keyword duplicating a
positionally-filled parameter) followed by the assignment.  On success the
result holds every parameter's value in declaration order. -/
def boundArguments (params : List LParam) (args : List Val)
    (kwargs : List (String × Val)) : Except String (List (String × Val)) :=
  if params.length < args.length then .error "too many positional arguments"
  else if ¬ (kwargs.all fun kv => params.any fun p => p.name = kv.1) then
    .error "got an unexpected keyword argument"
  else if ¬ ((params.take args.length).all fun p => alookup kwargs p.name = none)
  then .error "multiple values for argument"
  else assignParams params args kwargs

/-- The conversion loop of the `limier` wrapper: for each annotated name,
`bound.arguments[name] = converter(bound.arguments[name])`, catching only
`ValueError` into `errors`. -/
def applyConverters :
    List (String × CoK) → List (String × Val) → List (String × String) →
    Except (ExcKind × String) (List (String × Val) × List (String × String))
  | [], bound, errs => .ok (bound, errs)
  | (n, ck) :: rest, bound, errs =>
      match alookup bound n with
      | none => .error (.keyError, n)
      | some v =>
          match cokCall ck v with
          | .ok w => applyConverters rest (dictSet bound n w) errs
          | .error (k, m) =>
              if k = .valueError then applyConverters rest bound (dictSet errs n m)
              else .error (k, m)

/-- A call to the `limier.deduce` wrapper.  `func` is the underlying body,
receiving the full bound-arguments mapping (the wrapper calls
`func(*bound.args, **bound.kwargs)`, i.e. every parameter's value). -/
def limierDeduceCall (params : List LParam) (d : Registry)
    (func : List (String × Val) → PyResult Val)
    (args : List Val) (kwargs : List (String × Val)) : Except PyExc Val :=
  match boundArguments params args kwargs with
  | .error m => .error (.exc .typeError m)
  | .ok bound =>
      match applyConverters (buildConverters params d) bound [] with
      | .error (k, m) => .error (.exc k m)
      | .ok (bound', errs) =>
          if errs = [] then
            match func bound' with
            | .ok r => .ok r
            | .error (k, m) => .error (.exc k m)
          else .error (.convError errs)

/-- Lift of a function-body result to a wrapper outcome. -/
def liftPy (r : PyResult Val) : Except PyExc Val :=
  match r with
  | .ok r => .ok r
  | .error (k, m) => .error (.exc k m)

/-- The converted value of a bound argument: the output of its resolved
converter when one exists and succeeds, else the value itself (only used to
*describe* the success path, where every converter succeeds). -/
def convApply (convs : List (String × CoK)) (n : String) (v : Val) : Val :=
  match alookup convs n with
  | some ck =>
      match cokCall ck v with
      | .ok w => w
      | .error _ => v
  | none => v

/-- All bound arguments with their converted values. -/
def applyAll (convs : List (String × CoK)) (bound : List (String × Val)) :
    List (String × Val) :=
  bound.map fun q => (q.1, convApply convs q.1 q.2)

/-- Does this result model a raised `ValueError` (the uniform conversion
failure)? -/
def isVErr {α : Type} : PyResult α → Bool
  | .error (.valueError, _) => true
  | _ => false

/-! ### Decimal numerals (specification side, for the Range claim)

The claim speaks of the strings `"min:max"`, `"min..max"`, `"min...max"`
for arbitrary non-negative integers; `decRepr` writes the standard decimal
numeral of a natural number, via Mathlib's little-endian `Nat.digits`. -/

/-- The character of a decimal digit. -/
def digitChar : Nat → Char
  | 0 => '0'
  | 1 => '1'
  | 2 => '2'
  | 3 => '3'
  | 4 => '4'
  | 5 => '5'
  | 6 => '6'
  | 7 => '7'
  | 8 => '8'
  | _ => '9'

/-- Big-endian decimal digit characters of `n` (most significant first). -/
def decDigits (n : Nat) : List Char :=
  if n = 0 then ['0'] else ((Nat.digits 10 n).reverse.map digitChar)

/-- The decimal numeral of `n` as a string. -/
def decRepr (n : Nat) : String := String.mk (decDigits n)

theorem digitChar_isDig {d : Nat} (h : d < 10) : isDig (digitChar d) = true := by
  interval_cases d <;> rfl

theorem digVal_digitChar {d : Nat} (h : d < 10) : digVal (digitChar d) = d := by
  interval_cases d <;> rfl

theorem isDig_ne_dot {c : Char} (h : isDig c = true) : ¬ c = '.' := by
  intro hc
  subst hc
  exact absurd h (by decide)

theorem isDig_ne_colon {c : Char} (h : isDig c = true) : ¬ c = ':' := by
  intro hc
  subst hc
  exact absurd h (by decide)

theorem takeDigits_append (l rest : List Char)
    (hl : ∀ c ∈ l, isDig c = true)
    (hr : ∀ c, rest.head? = some c → isDig c = false) :
    takeDigits (l ++ rest) = (l, rest) := by
  induction l with
  | nil =>
      cases rest with
      | nil => rfl
      | cons c cs => simp [takeDigits, hr c rfl]
  | cons c cs ih =>
      have hc : isDig c = true := hl c (List.mem_cons_self c cs)
      have hcs : ∀ x ∈ cs, isDig x = true :=
        fun x hx => hl x (List.mem_cons_of_mem c hx)
      simp [takeDigits, hc, ih hcs]

theorem takeWhile_dot_append (l rest : List Char)
    (hl : ∀ c ∈ l, c = '.')
    (hr : ∀ c, rest.head? = some c → ¬ c = '.') :
    (l ++ rest).takeWhile (fun c => c = '.') = l ∧
    (l ++ rest).dropWhile (fun c => c = '.') = rest := by
  induction l with
  | nil =>
      cases rest with
      | nil => exact ⟨rfl, rfl⟩
      | cons c cs =>
          constructor <;> simp [List.takeWhile, List.dropWhile, hr c rfl]
  | cons c cs ih =>
      have hc : c = '.' := hl c (List.mem_cons_self c cs)
      have hcs : ∀ x ∈ cs, x = '.' :=
        fun x hx => hl x (List.mem_cons_of_mem c hx)
      obtain ⟨h1, h2⟩ := ih hcs
      subst hc
      constructor <;> simp [List.takeWhile, List.dropWhile, h1, h2]

theorem foldl_digitChar (L : List Nat) (acc : Nat) (hL : ∀ d ∈ L, d < 10) :
    (L.map digitChar).foldl (fun a c => 10 * a + digVal c) acc
      = L.foldl (fun a d => 10 * a + d) acc := by
  induction L generalizing acc with
  | nil => rfl
  | cons d L ih =>
      have hd : d < 10 := hL d (List.mem_cons_self d L)
      have hL2 : ∀ x ∈ L, x < 10 := fun x hx => hL x (List.mem_cons_of_mem d hx)
      simp only [List.map_cons, List.foldl_cons, digVal_digitChar hd, ih _ hL2]

theorem foldl_reverse_digits (L : List Nat) (acc : Nat) :
    L.reverse.foldl (fun a d => 10 * a + d) acc
      = acc * 10 ^ L.length + Nat.ofDigits 10 L := by
  induction L generalizing acc with
  | nil => simp [Nat.ofDigits]
  | cons d L ih =>
      simp only [List.reverse_cons, List.foldl_append, List.foldl_cons,
        List.foldl_nil, ih, Nat.ofDigits_cons, List.length_cons, pow_succ]
      ring

theorem decDigits_all_isDig (n : Nat) : ∀ c ∈ decDigits n, isDig c = true := by
  intro c hc
  unfold decDigits at hc
  by_cases h : n = 0
  · rw [if_pos h] at hc
    simp at hc
    subst hc
    rfl
  · rw [if_neg h] at hc
    obtain ⟨d, hd, rfl⟩ := List.mem_map.mp hc
    exact digitChar_isDig (Nat.digits_lt_base (by norm_num) (List.mem_reverse.mp hd))

theorem decDigits_ne_nil (n : Nat) : decDigits n ≠ [] := by
  unfold decDigits
  by_cases h : n = 0
  · simp [h]
  · rw [if_neg h]
    simp [Nat.digits_ne_nil_iff_ne_zero.mpr h]

theorem digitsVal_decDigits (n : Nat) : digitsVal (decDigits n) = n := by
  unfold decDigits digitsVal
  by_cases h : n = 0
  · simp [h, digVal]
  · rw [if_neg h]
    rw [foldl_digitChar _ 0
      (fun d hd => Nat.digits_lt_base (by norm_num) (List.mem_reverse.mp hd))]
    rw [foldl_reverse_digits]
    simp [Nat.ofDigits_digits]

/-- Lemma: `rangeMatch` accepts `min:max` written with decimal numerals. -/
theorem rangeMatch_colon (mn mx : Nat) :
    rangeMatch (decDigits mn ++ ':' :: decDigits mx) = some (mn, mx) := by
  have h1 : takeDigits (decDigits mn ++ ':' :: decDigits mx)
      = (decDigits mn, ':' :: decDigits mx) := by
    refine takeDigits_append _ _ (decDigits_all_isDig mn) ?_
    intro c hc
    simp at hc
    subst hc
    rfl
  have h2 : takeDigits (decDigits mx) = (decDigits mx, []) := by
    have := takeDigits_append (decDigits mx) [] (decDigits_all_isDig mx)
      (by intro c hc; simp at hc)
    simpa using this
  unfold rangeMatch
  rw [h1]
  simp only [decDigits_ne_nil mn, if_neg (decDigits_ne_nil mn)]
  rw [h2]
  simp [decDigits_ne_nil mx, digitsVal_decDigits]

/-- Lemma: `rangeMatch` accepts `min..max` and `min...max` written with decimal
numerals (`k` dots, `k = 2` or `k = 3`). -/
theorem rangeMatch_dots (mn mx k : Nat) (hk : k = 2 ∨ k = 3) :
    rangeMatch (decDigits mn ++ List.replicate k '.' ++ decDigits mx)
      = some (mn, mx) := by
  have hhead : ∀ c, (List.replicate k '.' ++ decDigits mx).head? = some c →
      isDig c = false := by
    intro c hc
    have hk2 : 0 < k := by omega
    cases k with
    | zero => omega
    | succ k2 =>
        simp [List.replicate] at hc
        subst hc
        rfl
  have h1 : takeDigits (decDigits mn ++ (List.replicate k '.' ++ decDigits mx))
      = (decDigits mn, List.replicate k '.' ++ decDigits mx) :=
    takeDigits_append _ _ (decDigits_all_isDig mn) hhead
  have hdots : (List.replicate k '.' ++ decDigits mx).takeWhile
        (fun c => c = '.') = List.replicate k '.' ∧
      (List.replicate k '.' ++ decDigits mx).dropWhile
        (fun c => c = '.') = decDigits mx := by
    refine takeWhile_dot_append _ _ (fun c hc => List.eq_of_mem_replicate hc) ?_
    intro c hc
    cases hx : decDigits mx with
    | nil => exact absurd hx (decDigits_ne_nil mx)
    | cons c2 cs =>
        rw [hx] at hc
        simp at hc
        subst hc
        exact isDig_ne_dot (decDigits_all_isDig mx c2 (by rw [hx]; exact List.mem_cons_self c2 cs))
  have h2 : takeDigits (decDigits mx) = (decDigits mx, []) := by
    have := takeDigits_append (decDigits mx) [] (decDigits_all_isDig mx)
      (by intro c hc; simp at hc)
    simpa using this
  unfold rangeMatch
  rw [List.append_assoc, h1]
  simp only [if_neg (decDigits_ne_nil mn)]
  have hrepl : List.replicate k '.' ++ decDigits mx
      = '.' :: (List.replicate (k - 1) '.' ++ decDigits mx) := by
    cases k with
    | zero => omega
    | succ k2 => simp [List.replicate]
  rw [hrepl]
  have hdots2 := hdots
  rw [hrepl] at hdots2
  simp only [hdots2.1, hdots2.2, List.length_replicate]
  rw [h2]
  simp [hk, decDigits_ne_nil mx, digitsVal_decDigits]

/-! ### Specification-side descriptions of the `deduce` call-time walk -/

/-- The converter's run followed the uniform failure contract on this value:
it either succeeded or raised the conversion failure `ValueError`. -/
def okOrVE (r : PyResult Val) : Prop :=
  (∃ v, r = .ok v) ∨ (∃ m, r = .error (.valueError, m))

/-- The converter effectively used for a supplied keyword `n`: the stored
one, else the `defaultdict`'s identity default. -/
def kwEff (kw : List (String × Conv)) (n : String) : Conv :=
  (alookup kw n).getD .identity

/-- Predicate: `st` behaves like `orig` under defaultdict lookup (insertions of
identity entries do not change any lookup's result). -/
def extendsId (orig st : List (String × Conv)) : Prop :=
  ∀ n, kwEff st n = kwEff orig n

/-- The parameter names whose positional value fails conversion: the i-th
positional value is matched with the i-th pair of
`positional_converters ++ keyword_converters`. -/
def failedArgNames (pos fb : List (String × Conv)) (args : List Val) :
    List String :=
  (List.zip (pos ++ fb) args).filterMap fun p =>
    if isVErr (convCall p.1.2 p.2) then some p.1.1 else none

/-- The supplied keyword names whose value fails conversion. -/
def failedKwNames (orig : List (String × Conv))
    (kwargs : List (String × Val)) : List String :=
  kwargs.filterMap fun p =>
    if isVErr (convCall (kwEff orig p.1) p.2) then some p.1 else none

/-- The successfully converted positional values, in order. -/
def convertedOf (pos fb : List (String × Conv)) (args : List Val) :
    List Val :=
  (List.zip (pos ++ fb) args).filterMap fun p => (convCall p.1.2 p.2).toOption

/-- The `(name, identity)` entries a sequence of keyword lookups appends to
the defaultdict: one per first occurrence of a name not already known. -/
def newIdentEntries (known : List String) :
    List (String × Val) → List (String × Conv)
  | [] => []
  | (n, _) :: rest =>
      if n ∈ known then newIdentEntries known rest
      else (n, .identity) :: newIdentEntries (known ++ [n]) rest

theorem alookup_eq_none_iff {α : Type} (d : List (String × α)) (n : String) :
    alookup d n = none ↔ n ∉ dKeys d := by
  induction d with
  | nil => simp [alookup, dKeys]
  | cons hd tl ih =>
      obtain ⟨k, v⟩ := hd
      by_cases hk : k = n
      · subst hk
        simp [alookup, dKeys]
      · have hk2 : ¬n = k := fun h => hk h.symm
        simp [alookup, dKeys, hk, ih, hk2]

theorem alookup_append {α : Type} (l1 l2 : List (String × α)) (n : String) :
    alookup (l1 ++ l2) n
      = match alookup l1 n with
        | some v => some v
        | none => alookup l2 n := by
  induction l1 with
  | nil => simp [alookup]
  | cons hd tl ih =>
      obtain ⟨k, v⟩ := hd
      by_cases hk : k = n <;> simp [alookup, hk, ih]

/-- Master lemma for the positional walk of `deduce.convert`: when no more
positional values are supplied than there are plan entries and every matched
converter follows the failure contract, the walk returns the converted
values and extends the error dict by exactly the failing names. -/
theorem convertArgs_spec (args : List Val) :
    ∀ (pos fb : List (String × Conv)) (acc : List Val)
      (errs : List (String × String)),
    args.length ≤ pos.length + fb.length →
    (∀ p ∈ List.zip (pos ++ fb) args, okOrVE (convCall p.1.2 p.2)) →
    ∃ errs2,
      convertArgs pos fb args acc errs
        = .ok (acc ++ convertedOf pos fb args, errs2) ∧
      (∀ x, x ∈ dKeys errs2 ↔ x ∈ dKeys errs ∨ x ∈ failedArgNames pos fb args) ∧
      ((dKeys errs).Nodup → (dKeys errs2).Nodup) := by
  induction args with
  | nil =>
      intro pos fb acc errs _ _
      refine ⟨errs, ?_, ?_, fun h => h⟩
      · simp [convertArgs, convertedOf]
      · simp [failedArgNames]
  | cons v rest ih =>
      intro pos fb acc errs hlen hok
      cases pos with
      | cons p pr =>
          obtain ⟨n, c⟩ := p
          have hzip : List.zip (((n, c) :: pr) ++ fb) (v :: rest)
              = ((n, c), v) :: List.zip (pr ++ fb) rest := by
            simp [List.zip_cons_cons]
          have hhead : okOrVE (convCall c v) := by
            have := hok ((n, c), v) (by rw [hzip]; exact List.mem_cons_self _ _)
            exact this
          have htail : ∀ p ∈ List.zip (pr ++ fb) rest, okOrVE (convCall p.1.2 p.2) := by
            intro p hp
            exact hok p (by rw [hzip]; exact List.mem_cons_of_mem _ hp)
          have hlen2 : rest.length ≤ pr.length + fb.length := by
            simp [List.length_cons] at hlen
            omega
          rcases hhead with ⟨w, hw⟩ | ⟨m, hm⟩
          · obtain ⟨errs2, heq, hiff, hnd⟩ := ih pr fb (acc ++ [w]) errs hlen2 htail
            refine ⟨errs2, ?_, ?_, hnd⟩
            · rw [show convertArgs ((n, c) :: pr) fb (v :: rest) acc errs
                  = convertArgs pr fb rest (acc ++ [w]) errs by
                simp [convertArgs, hw]]
              rw [heq]
              simp [convertedOf, hzip, hw, Except.toOption]
            · intro x
              rw [hiff x]
              simp [failedArgNames, hzip, isVErr, hw]
          · obtain ⟨errs2, heq, hiff, hnd⟩ :=
              ih pr fb acc (dictSet errs n m) hlen2 htail
            refine ⟨errs2, ?_, ?_, ?_⟩
            · rw [show convertArgs ((n, c) :: pr) fb (v :: rest) acc errs
                  = convertArgs pr fb rest acc (dictSet errs n m) by
                simp [convertArgs, hm]]
              rw [heq]
              simp [convertedOf, hzip, hm, Except.toOption]
            · intro x
              rw [hiff x, mem_dKeys_dictSet]
              simp only [failedArgNames, hzip, List.filterMap_cons, isVErr, hm,
                if_pos rfl]
              simp [failedArgNames]
              tauto
            · intro h
              exact hnd (nodup_dKeys_dictSet errs n m h)
      | nil =>
          cases fb with
          | nil =>
              exfalso
              simp [List.length_cons] at hlen
          | cons p fbRest =>
              obtain ⟨n, c⟩ := p
              have hzip : List.zip (([] : List (String × Conv)) ++ (n, c) :: fbRest)
                  (v :: rest) = ((n, c), v) :: List.zip fbRest rest := by
                simp [List.zip_cons_cons]
              have hhead : okOrVE (convCall c v) := by
                have := hok ((n, c), v) (by rw [hzip]; exact List.mem_cons_self _ _)
                exact this
              have htail : ∀ p ∈ List.zip (([] : List (String × Conv)) ++ fbRest)
                  rest, okOrVE (convCall p.1.2 p.2) := by
                intro p hp
                refine hok p ?_
                rw [hzip]
                refine List.mem_cons_of_mem _ ?_
                simpa using hp
              have hlen2 : rest.length ≤ 0 + fbRest.length := by
                simp [List.length_cons] at hlen ⊢
                omega
              rcases hhead with ⟨w, hw⟩ | ⟨m, hm⟩
              · obtain ⟨errs2, heq, hiff, hnd⟩ :=
                  ih [] fbRest (acc ++ [w]) errs hlen2 htail
                refine ⟨errs2, ?_, ?_, hnd⟩
                · rw [show convertArgs [] ((n, c) :: fbRest) (v :: rest) acc errs
                      = convertArgs [] fbRest rest (acc ++ [w]) errs by
                    simp [convertArgs, hw]]
                  rw [heq]
                  simp [convertedOf, hzip, hw, Except.toOption]
                · intro x
                  rw [hiff x]
                  simp [failedArgNames, hzip, isVErr, hw]
              · obtain ⟨errs2, heq, hiff, hnd⟩ :=
                  ih [] fbRest acc (dictSet errs n m) hlen2 htail
                refine ⟨errs2, ?_, ?_, ?_⟩
                · rw [show convertArgs [] ((n, c) :: fbRest) (v :: rest) acc errs
                      = convertArgs [] fbRest rest acc (dictSet errs n m) by
                    simp [convertArgs, hm]]
                  rw [heq]
                  simp [convertedOf, hzip, hm, Except.toOption]
                · intro x
                  rw [hiff x, mem_dKeys_dictSet]
                  simp only [failedArgNames, hzip, List.filterMap_cons, isVErr,
                    hm, if_pos rfl]
                  simp [failedArgNames]
                  tauto
                · intro h
                  exact hnd (nodup_dKeys_dictSet errs n m h)

/-- When more positional values are supplied than plan entries (and the
processed prefix follows the failure contract), the positional walk raises
`StopIteration` from the exhausted fallback iterator. -/
theorem convertArgs_overflow (args : List Val) :
    ∀ (pos fb : List (String × Conv)) (acc : List Val)
      (errs : List (String × String)),
    pos.length + fb.length < args.length →
    (∀ p ∈ List.zip (pos ++ fb) args, okOrVE (convCall p.1.2 p.2)) →
    convertArgs pos fb args acc errs = .error (.stopIteration, "") := by
  induction args with
  | nil =>
      intro pos fb acc errs hlen _
      exfalso
      simp at hlen
  | cons v rest ih =>
      intro pos fb acc errs hlen hok
      cases pos with
      | cons p pr =>
          obtain ⟨n, c⟩ := p
          have hzip : List.zip (((n, c) :: pr) ++ fb) (v :: rest)
              = ((n, c), v) :: List.zip (pr ++ fb) rest := by
            simp [List.zip_cons_cons]
          have hhead : okOrVE (convCall c v) := by
            have := hok ((n, c), v) (by rw [hzip]; exact List.mem_cons_self _ _)
            exact this
          have htail : ∀ p ∈ List.zip (pr ++ fb) rest, okOrVE (convCall p.1.2 p.2) :=
            fun p hp => hok p (by rw [hzip]; exact List.mem_cons_of_mem _ hp)
          have hlen2 : pr.length + fb.length < rest.length := by
            simp [List.length_cons] at hlen
            omega
          rcases hhead with ⟨w, hw⟩ | ⟨m, hm⟩
          · rw [show convertArgs ((n, c) :: pr) fb (v :: rest) acc errs
                = convertArgs pr fb rest (acc ++ [w]) errs by
              simp [convertArgs, hw]]
            exact ih pr fb _ _ hlen2 htail
          · rw [show convertArgs ((n, c) :: pr) fb (v :: rest) acc errs
                = convertArgs pr fb rest acc (dictSet errs n m) by
              simp [convertArgs, hm]]
            exact ih pr fb _ _ hlen2 htail
      | nil =>
          cases fb with
          | nil => rfl
          | cons p fbRest =>
              obtain ⟨n, c⟩ := p
              have hzip : List.zip (([] : List (String × Conv)) ++ (n, c) :: fbRest)
                  (v :: rest) = ((n, c), v) :: List.zip fbRest rest := by
                simp [List.zip_cons_cons]
              have hhead : okOrVE (convCall c v) := by
                have := hok ((n, c), v) (by rw [hzip]; exact List.mem_cons_self _ _)
                exact this
              have htail : ∀ p ∈ List.zip (([] : List (String × Conv)) ++ fbRest)
                  rest, okOrVE (convCall p.1.2 p.2) := by
                intro p hp
                refine hok p ?_
                rw [hzip]
                refine List.mem_cons_of_mem _ ?_
                simpa using hp
              have hlen2 : 0 + fbRest.length < rest.length := by
                simp [List.length_cons] at hlen ⊢
                omega
              rcases hhead with ⟨w, hw⟩ | ⟨m, hm⟩
              · rw [show convertArgs [] ((n, c) :: fbRest) (v :: rest) acc errs
                    = convertArgs [] fbRest rest (acc ++ [w]) errs by
                  simp [convertArgs, hw]]
                exact ih [] fbRest _ _ hlen2 htail
              · rw [show convertArgs [] ((n, c) :: fbRest) (v :: rest) acc errs
                    = convertArgs [] fbRest rest acc (dictSet errs n m) by
                  simp [convertArgs, hm]]
                exact ih [] fbRest _ _ hlen2 htail

theorem dKeys_append {α : Type} (a b : List (String × α)) :
    dKeys (a ++ b) = dKeys a ++ dKeys b := by
  simp [dKeys]

theorem kwGetDefault_found (st : List (String × Conv)) (n : String) (c : Conv)
    (h : alookup st n = some c) : kwGetDefault st n = (c, st) := by
  simp [kwGetDefault, h]

theorem kwGetDefault_missing (st : List (String × Conv)) (n : String)
    (h : alookup st n = none) :
    kwGetDefault st n = (.identity, st ++ [(n, .identity)]) := by
  simp [kwGetDefault, h]

/-- Master lemma for the keyword walk of `deduce.convert`: when every
supplied keyword's effective converter follows the failure contract, the
walk completes, extends the error dict by exactly the failing keyword
names, and appends to the defaultdict exactly one identity entry per first
occurrence of a previously-unknown name. -/
theorem convertKwargs_spec (kwargs : List (String × Val)) :
    ∀ (orig st : List (String × Conv)) (acc : List (String × Val))
      (errs : List (String × String)),
    extendsId orig st →
    (∀ p ∈ kwargs, okOrVE (convCall (kwEff orig p.1) p.2)) →
    ∃ acc2 errs2,
      convertKwargs st kwargs acc errs
        = (.ok (acc2, errs2), st ++ newIdentEntries (dKeys st) kwargs) ∧
      (∀ x, x ∈ dKeys errs2 ↔ x ∈ dKeys errs ∨ x ∈ failedKwNames orig kwargs) ∧
      ((dKeys errs).Nodup → (dKeys errs2).Nodup) := by
  induction kwargs with
  | nil =>
      intro orig st acc errs _ _
      refine ⟨acc, errs, ?_, ?_, fun h => h⟩
      · simp [convertKwargs, newIdentEntries]
      · simp [failedKwNames]
  | cons p rest ih =>
      obtain ⟨n, v⟩ := p
      intro orig st acc errs hext hok
      have hhead : okOrVE (convCall (kwEff orig n) v) :=
        hok (n, v) (List.mem_cons_self _ _)
      have htail : ∀ p ∈ rest, okOrVE (convCall (kwEff orig p.1) p.2) :=
        fun p hp => hok p (List.mem_cons_of_mem _ hp)
      cases hlk : alookup st n with
      | some c =>
          have hc : c = kwEff orig n := by
            have := hext n
            simpa [kwEff, hlk] using this
          have hmem : n ∈ dKeys st := by
            by_contra hmem
            rw [← alookup_eq_none_iff st n] at hmem
            rw [hmem] at hlk
            exact Option.noConfusion hlk
          have hnew : newIdentEntries (dKeys st) ((n, v) :: rest)
              = newIdentEntries (dKeys st) rest := by
            simp [newIdentEntries, hmem]
          rcases hhead with ⟨w, hw⟩ | ⟨m, hm⟩
          · have hstep : convertKwargs st ((n, v) :: rest) acc errs
                = convertKwargs st rest (dictSet acc n w) errs := by
              rw [← hc] at hw
              simp [convertKwargs, kwGetDefault_found st n c hlk, hw]
            obtain ⟨acc2, errs2, heq, hiff, hnd⟩ :=
              ih orig st (dictSet acc n w) errs hext htail
            refine ⟨acc2, errs2, ?_, ?_, hnd⟩
            · rw [hstep, heq, hnew]
            · intro x
              rw [hiff x]
              simp [failedKwNames, isVErr, hw]
          · have hstep : convertKwargs st ((n, v) :: rest) acc errs
                = convertKwargs st rest acc (dictSet errs n m) := by
              rw [← hc] at hm
              simp [convertKwargs, kwGetDefault_found st n c hlk, hm]
            obtain ⟨acc2, errs2, heq, hiff, hnd⟩ :=
              ih orig st acc (dictSet errs n m) hext htail
            refine ⟨acc2, errs2, ?_, ?_, ?_⟩
            · rw [hstep, heq, hnew]
            · intro x
              rw [hiff x, mem_dKeys_dictSet]
              simp only [failedKwNames, List.filterMap_cons, isVErr, hm,
                if_pos rfl]
              simp [failedKwNames]
              tauto
            · intro h
              exact hnd (nodup_dKeys_dictSet errs n m h)
      | none =>
          have hid : kwEff orig n = .identity := by
            have h2 := hext n
            simp [kwEff, hlk] at h2
            exact h2.symm
          have hmem : n ∉ dKeys st := (alookup_eq_none_iff st n).mp hlk
          have hok2 : convCall Conv.identity v = .ok v := rfl
          have hext2 : extendsId orig (st ++ [(n, .identity)]) := by
            intro m2
            rw [← hext m2]
            unfold kwEff
            rw [alookup_append]
            cases hl2 : alookup st m2 with
            | some c2 => rfl
            | none =>
                by_cases hm2 : n = m2 <;> simp [alookup, hm2]
          have hstep : convertKwargs st ((n, v) :: rest) acc errs
              = convertKwargs (st ++ [(n, .identity)]) rest
                  (dictSet acc n v) errs := by
            simp [convertKwargs, kwGetDefault_missing st n hlk, hok2]
          obtain ⟨acc2, errs2, heq, hiff, hnd⟩ :=
            ih orig (st ++ [(n, .identity)]) (dictSet acc n v) errs hext2 htail
          refine ⟨acc2, errs2, ?_, ?_, hnd⟩
          · rw [hstep, heq]
            have hkeys : dKeys (st ++ [(n, .identity)]) = dKeys st ++ [n] := by
              simp [dKeys_append, dKeys]
            rw [hkeys]
            have hnew : newIdentEntries (dKeys st) ((n, v) :: rest)
                = (n, .identity) :: newIdentEntries (dKeys st ++ [n]) rest := by
              simp [newIdentEntries, hmem]
            rw [hnew, List.append_assoc]
            rfl
          · intro x
            rw [hiff x]
            have hno : isVErr (convCall (kwEff orig n) v) = false := by
              rw [hid]
              rfl
            simp [failedKwNames, hno]

theorem deduceConvert_eq (plan : DeducePlan) (args : List Val)
    (kwargs : List (String × Val)) (cargs : List Val)
    (errs1 : List (String × String)) (acc2 : List (String × Val))
    (errs2 : List (String × String)) (st : List (String × Conv))
    (hA : convertArgs plan.positional plan.keyword args [] []
      = .ok (cargs, errs1))
    (hB : convertKwargs plan.keyword kwargs [] errs1 = (.ok (acc2, errs2), st)) :
    deduceConvert plan args kwargs
      = (if errs2 = [] then .ok (cargs, acc2) else .error (.convError errs2),
          st) := by
  unfold deduceConvert
  rw [hA]
  dsimp only
  rw [hB]
  by_cases h : errs2 = [] <;> simp [h]

theorem deduceConvert_argsRaise (plan : DeducePlan) (args : List Val)
    (kwargs : List (String × Val)) (k : ExcKind) (m : String)
    (hA : convertArgs plan.positional plan.keyword args [] []
      = .error (k, m)) :
    deduceConvert plan args kwargs = (.error (.exc k m), plan.keyword) := by
  unfold deduceConvert
  rw [hA]

theorem deduceCall_of_convError (plan : DeducePlan)
    (func : List Val → List (String × Val) → PyResult Val)
    (args : List Val) (kwargs : List (String × Val)) (e : PyExc)
    (st : List (String × Conv))
    (h : deduceConvert plan args kwargs = (.error e, st)) :
    deduceCall plan func args kwargs = (.error e, st) := by
  unfold deduceCall
  rw [h]

theorem mem_dKeys_exists {α : Type} (d : List (String × α)) (n : String)
    (h : n ∈ dKeys d) : ∃ v, alookup d n = some v := by
  cases hl : alookup d n with
  | some v => exact ⟨v, rfl⟩
  | none => exact absurd ((alookup_eq_none_iff d n).mp hl) (fun h2 => h2 h)

theorem applyAll_nil (bound : List (String × Val)) :
    applyAll [] bound = bound := by
  simp [applyAll, convApply, alookup]

theorem applyAll_not_mem (n : String) (ck : CoK) (rest : List (String × CoK))
    (bt : List (String × Val)) (h : ∀ q ∈ bt, ¬ q.1 = n) :
    applyAll ((n, ck) :: rest) bt = applyAll rest bt := by
  induction bt with
  | nil => rfl
  | cons q qs ih =>
      have hq : ¬ q.1 = n := h q (List.mem_cons_self q qs)
      have hqs : ∀ r ∈ qs, ¬ r.1 = n :=
        fun r hr => h r (List.mem_cons_of_mem q hr)
      have hn : ¬ n = q.1 := fun h2 => hq h2.symm
      simp only [applyAll, List.map_cons] at ih ⊢
      rw [ih hqs]
      simp [convApply, alookup, hn]

theorem applyAll_cons (n : String) (ck : CoK) (rest : List (String × CoK))
    (bound : List (String × Val)) (v w : Val)
    (hv : alookup bound n = some v) (hw : cokCall ck v = .ok w)
    (hnr : n ∉ dKeys rest) (hnb : (dKeys bound).Nodup) :
    applyAll rest (dictSet bound n w) = applyAll ((n, ck) :: rest) bound := by
  induction bound with
  | nil => simp [alookup] at hv
  | cons q bt ih =>
      obtain ⟨m, u⟩ := q
      simp only [dKeys, List.map_cons, List.nodup_cons] at hnb
      by_cases hm : m = n
      · subst hm
        have hu : u = v := by
          simp only [alookup, if_pos rfl] at hv
          exact Option.some.inj hv
        have hset : dictSet ((m, u) :: bt) m w = (m, w) :: bt := by
          simp [dictSet]
        rw [hset]
        have hlook : alookup rest m = none := (alookup_eq_none_iff rest m).mpr hnr
        have hbt : ∀ q ∈ bt, ¬ q.1 = m := by
          intro q hq hqm
          exact hnb.1 (by
            rw [← hqm]
            exact List.mem_map_of_mem Prod.fst hq)
        simp only [applyAll, List.map_cons]
        have htail := applyAll_not_mem m ck rest bt hbt
        simp only [applyAll] at htail
        rw [← htail]
        refine congrArg (fun z => z :: _) ?_
        simp [convApply, alookup, hlook, hu, hw]
      · have hv2 : alookup bt n = some v := by
          simp only [alookup, if_neg hm] at hv
          exact hv
        have hset : dictSet ((m, u) :: bt) n w = (m, u) :: dictSet bt n w := by
          simp [dictSet, hm]
        rw [hset]
        simp only [applyAll, List.map_cons]
        rw [show List.map (fun q => (q.1, convApply rest q.1 q.2))
            (dictSet bt n w) = applyAll rest (dictSet bt n w) from rfl]
        rw [ih hv2 hnb.2]
        have hnm : ¬ n = m := fun h2 => hm h2.symm
        simp [applyAll, convApply, alookup, hnm]

/-- When every converter of the plan resolves and succeeds on the bound
value of its parameter, the conversion loop of the `limier` wrapper
replaces each annotated argument by its converted value and accumulates no
errors. -/
theorem applyConverters_spec (convs : List (String × CoK)) :
    ∀ (bound : List (String × Val)) (errs : List (String × String)),
    (dKeys convs).Nodup →
    (dKeys bound).Nodup →
    (∀ q ∈ convs, q.1 ∈ dKeys bound) →
    (∀ q ∈ convs, ∀ v, alookup bound q.1 = some v →
      ∃ w, cokCall q.2 v = .ok w) →
    applyConverters convs bound errs = .ok (applyAll convs bound, errs) := by
  induction convs with
  | nil =>
      intro bound errs _ _ _ _
      simp [applyConverters, applyAll_nil]
  | cons q rest ih =>
      obtain ⟨n, ck⟩ := q
      intro bound errs hnc hnb hpres hsucc
      simp only [dKeys, List.map_cons, List.nodup_cons] at hnc
      obtain ⟨v, hv⟩ := mem_dKeys_exists bound n
        (hpres (n, ck) (List.mem_cons_self _ _))
      obtain ⟨w, hw⟩ := hsucc (n, ck) (List.mem_cons_self _ _) v hv
      have hstep : applyConverters ((n, ck) :: rest) bound errs
          = applyConverters rest (dictSet bound n w) errs := by
        simp [applyConverters, hv, hw]
      rw [hstep]
      have hnr : n ∉ dKeys rest := by simpa [dKeys] using hnc.1
      have hpres2 : ∀ q ∈ rest, q.1 ∈ dKeys (dictSet bound n w) := by
        intro q hq
        rw [mem_dKeys_dictSet]
        exact Or.inl (hpres q (List.mem_cons_of_mem _ hq))
      have hsucc2 : ∀ q ∈ rest, ∀ v2, alookup (dictSet bound n w) q.1 = some v2 →
          ∃ w2, cokCall q.2 v2 = .ok w2 := by
        intro q hq v2 hv2
        have hqn : q.1 ≠ n := by
          intro h2
          exact hnr (by
            rw [← h2]
            exact List.mem_map_of_mem Prod.fst hq)
        rw [alookup_dictSet_ne bound n q.1 w hqn] at hv2
        exact hsucc q (List.mem_cons_of_mem _ hq) v2 hv2
      rw [ih (dictSet bound n w) errs hnc.2
        (nodup_dKeys_dictSet bound n w hnb) hpres2 hsucc2]
      rw [applyAll_cons n ck rest bound v w hv hw hnr hnb]

/-- When exactly the converters of one parameter name fail (with
`ValueError`) and every other converter succeeds, the conversion loop
completes with that single error recorded. -/
theorem applyConverters_one_fail (convs : List (String × CoK)) :
    ∀ (bound : List (String × Val)) (errs : List (String × String))
      (n0 : String) (ck0 : CoK) (m : String),
    (dKeys convs).Nodup →
    (dKeys bound).Nodup →
    (∀ q ∈ convs, q.1 ∈ dKeys bound) →
    (n0, ck0) ∈ convs →
    (∀ v, alookup bound n0 = some v → cokCall ck0 v = .error (.valueError, m)) →
    (∀ q ∈ convs, q.1 ≠ n0 → ∀ v, alookup bound q.1 = some v →
      ∃ w, cokCall q.2 v = .ok w) →
    ∃ bound2,
      applyConverters convs bound errs = .ok (bound2, dictSet errs n0 m) := by
  induction convs with
  | nil =>
      intro bound errs n0 ck0 m _ _ _ hmem _ _
      simp at hmem
  | cons q rest ih =>
      obtain ⟨n, ck⟩ := q
      intro bound errs n0 ck0 m hnc hnb hpres hmem hfail hothers
      simp only [dKeys, List.map_cons, List.nodup_cons] at hnc
      have hnr : n ∉ dKeys rest := by simpa [dKeys] using hnc.1
      obtain ⟨v, hv⟩ := mem_dKeys_exists bound n
        (hpres (n, ck) (List.mem_cons_self _ _))
      by_cases hn : n = n0
      · subst hn
        have hck : ck = ck0 := by
          rcases List.mem_cons.mp hmem with hh | ht
          · exact (Prod.mk.injEq _ _ _ _ ▸ hh).2.symm ▸ rfl
          · exact absurd (List.mem_map_of_mem Prod.fst ht) (by simpa [dKeys] using hnc.1)
        subst hck
        have hw := hfail v hv
        have hstep : applyConverters ((n, ck) :: rest) bound errs
            = applyConverters rest bound (dictSet errs n m) := by
          simp [applyConverters, hv, hw]
        rw [hstep]
        have hsucc2 : ∀ q ∈ rest, ∀ v2, alookup bound q.1 = some v2 →
            ∃ w2, cokCall q.2 v2 = .ok w2 := by
          intro q hq v2 hv2
          have hqn : q.1 ≠ n := by
            intro h2
            exact hnr (h2 ▸ List.mem_map_of_mem Prod.fst hq)
          exact hothers q (List.mem_cons_of_mem _ hq) hqn v2 hv2
        refine ⟨applyAll rest bound, ?_⟩
        exact applyConverters_spec rest bound (dictSet errs n m) hnc.2 hnb
          (fun q hq => hpres q (List.mem_cons_of_mem _ hq)) hsucc2
      · have hmem2 : (n0, ck0) ∈ rest := by
          rcases List.mem_cons.mp hmem with hh | ht
          · exact absurd (congrArg Prod.fst hh).symm hn
          · exact ht
        obtain ⟨w, hw⟩ := hothers (n, ck) (List.mem_cons_self _ _) hn v hv
        have hstep : applyConverters ((n, ck) :: rest) bound errs
            = applyConverters rest (dictSet bound n w) errs := by
          simp [applyConverters, hv, hw]
        rw [hstep]
        have hn0 : n0 ≠ n := fun h2 => hn h2.symm
        refine ih (dictSet bound n w) errs n0 ck0 m hnc.2
          (nodup_dKeys_dictSet bound n w hnb) ?_ hmem2 ?_ ?_
        · intro q hq
          rw [mem_dKeys_dictSet]
          exact Or.inl (hpres q (List.mem_cons_of_mem _ hq))
        · intro v2 hv2
          rw [alookup_dictSet_ne bound n n0 w hn0] at hv2
          exact hfail v2 hv2
        · intro q hq hqn0 v2 hv2
          have hqn : q.1 ≠ n := by
            intro h2
            exact hnr (h2 ▸ List.mem_map_of_mem Prod.fst hq)
          rw [alookup_dictSet_ne bound n q.1 w hqn] at hv2
          exact hothers q (List.mem_cons_of_mem _ hq) hqn0 v2 hv2

/-- A successful assignment binds exactly the declared parameters, in
declaration order. -/
theorem assignParams_keys (params : List LParam) :
    ∀ (args : List Val) (kwargs : List (String × Val))
      (bound : List (String × Val)),
    assignParams params args kwargs = .ok bound →
    dKeys bound = params.map LParam.name := by
  induction params with
  | nil =>
      intro args kwargs bound h
      cases args <;>
        · simp [assignParams] at h
          subst h
          rfl
  | cons p ps ih =>
      intro args kwargs bound h
      cases args with
      | cons v vs =>
          cases hr : assignParams ps vs kwargs with
          | ok r =>
              rw [assignParams, hr] at h
              simp [Except.map] at h
              subst h
              simp [dKeys, List.map_cons]
              exact ih vs kwargs r hr
          | error e =>
              rw [assignParams, hr] at h
              simp [Except.map] at h
      | nil =>
          cases hlk : alookup kwargs p.name with
          | some v =>
              cases hr : assignParams ps [] kwargs with
              | ok r =>
                  rw [assignParams, hlk, hr] at h
                  simp [Except.map] at h
                  subst h
                  simp [dKeys, List.map_cons]
                  exact ih [] kwargs r hr
              | error e =>
                  rw [assignParams, hlk, hr] at h
                  simp [Except.map] at h
          | none =>
              cases hd : p.dflt with
              | some dv =>
                  cases hr : assignParams ps [] kwargs with
                  | ok r =>
                      rw [assignParams, hlk, hd, hr] at h
                      simp [Except.map] at h
                      subst h
                      simp [dKeys, List.map_cons]
                      exact ih [] kwargs r hr
                  | error e =>
                      rw [assignParams, hlk, hd, hr] at h
                      simp [Except.map] at h
              | none =>
                  rw [assignParams, hlk, hd] at h
                  simp at h

/-- A successful `bind` means all pre-checks passed and the assignment
succeeded. -/
theorem boundArguments_ok (params : List LParam) (args : List Val)
    (kwargs : List (String × Val)) (bound : List (String × Val))
    (h : boundArguments params args kwargs = .ok bound) :
    assignParams params args kwargs = .ok bound := by
  unfold boundArguments at h
  split_ifs at h
  exact h

/-- A parameter that the call omits (no keyword for it and not enough
positional values to reach it) is bound to its declared default. -/
theorem assignParams_default_lookup (pre : List LParam) :
    ∀ (p : LParam) (post : List LParam) (args : List Val)
      (kwargs : List (String × Val)) (bound : List (String × Val)) (dv : Val),
    assignParams (pre ++ p :: post) args kwargs = .ok bound →
    args.length ≤ pre.length →
    alookup kwargs p.name = none →
    p.dflt = some dv →
    (∀ q ∈ pre, q.name ≠ p.name) →
    alookup bound p.name = some dv := by
  induction pre with
  | nil =>
      intro p post args kwargs bound dv h hlen hkw hd _
      have hargs : args = [] :=
        List.eq_nil_of_length_eq_zero (Nat.le_zero.mp (by simpa using hlen))
      subst hargs
      rw [List.nil_append] at h
      cases hr : assignParams post [] kwargs with
      | ok r =>
          rw [assignParams, hkw, hd, hr] at h
          simp [Except.map] at h
          subst h
          simp [alookup]
      | error e =>
          rw [assignParams, hkw, hd, hr] at h
          simp [Except.map] at h
  | cons q qt ih =>
      intro p post args kwargs bound dv h hlen hkw hd hne
      have hq : q.name ≠ p.name := hne q (List.mem_cons_self q qt)
      have hqt : ∀ r ∈ qt, r.name ≠ p.name :=
        fun r hr => hne r (List.mem_cons_of_mem q hr)
      cases args with
      | cons v vs =>
          rw [List.cons_append] at h
          cases hr : assignParams (qt ++ p :: post) vs kwargs with
          | ok r =>
              rw [assignParams, hr] at h
              simp [Except.map] at h
              subst h
              have hlen2 : vs.length ≤ qt.length := by
                simp [List.length_cons] at hlen
                omega
              rw [alookup, if_neg hq]
              exact ih p post vs kwargs r dv hr hlen2 hkw hd hqt
          | error e =>
              rw [assignParams, hr] at h
              simp [Except.map] at h
      | nil =>
          rw [List.cons_append] at h
          have hstep : ∀ (u : Val) r,
              assignParams (qt ++ p :: post) [] kwargs = .ok r →
              bound = (q.name, u) :: r →
              alookup bound p.name = some dv := by
            intro u r hr hb
            subst hb
            rw [alookup, if_neg hq]
            exact ih p post [] kwargs r dv hr (by simp) hkw hd hqt
          cases hlk : alookup kwargs q.name with
          | some u =>
              cases hr : assignParams (qt ++ p :: post) [] kwargs with
              | ok r =>
                  rw [assignParams, hlk, hr] at h
                  simp [Except.map] at h
                  exact hstep u r hr h.symm
              | error e =>
                  rw [assignParams, hlk, hr] at h
                  simp [Except.map] at h
          | none =>
              cases hqd : q.dflt with
              | some u =>
                  cases hr : assignParams (qt ++ p :: post) [] kwargs with
                  | ok r =>
                      rw [assignParams, hlk, hqd, hr] at h
                      simp [Except.map] at h
                      exact hstep u r hr h.symm
                  | error e =>
                      rw [assignParams, hlk, hqd, hr] at h
                      simp [Except.map] at h
              | none =>
                  rw [assignParams, hlk, hqd] at h
                  simp at h

/-- The plan's keys are drawn from the parameter names (a sublist). -/
theorem buildConverters_keys_sublist (params : List LParam) (d : Registry) :
    (dKeys (buildConverters params d)).Sublist (params.map LParam.name) := by
  induction params with
  | nil => simp [buildConverters, dKeys]
  | cons p ps ih =>
      cases ha : p.ann with
      | none =>
          simp only [buildConverters, List.filterMap_cons, ha, Option.map_none',
            List.map_cons]
          exact (ih : _).cons _
      | some a =>
          simp only [buildConverters, List.filterMap_cons, ha, Option.map_some',
            List.map_cons, dKeys]
          exact List.Sublist.cons₂ _ (ih : _)

/-- Annotated parameters appear in the plan with their resolved converter. -/
theorem mem_buildConverters (params : List LParam) (d : Registry)
    (p : LParam) (a : Key) (hp : p ∈ params) (ha : p.ann = some a) :
    (p.name, retrieve d a) ∈ buildConverters params d := by
  refine List.mem_filterMap.mpr ⟨p, hp, ?_⟩
  rw [ha]
  rfl

theorem limierDeduceCall_eq (params : List LParam) (d : Registry)
    (func : List (String × Val) → PyResult Val) (args : List Val)
    (kwargs : List (String × Val)) (bound bound2 : List (String × Val))
    (errs : List (String × String))
    (hbind : boundArguments params args kwargs = .ok bound)
    (happ : applyConverters (buildConverters params d) bound []
      = .ok (bound2, errs)) :
    limierDeduceCall params d func args kwargs
      = if errs = [] then liftPy (func bound2)
        else .error (.convError errs) := by
  unfold limierDeduceCall
  rw [hbind]
  dsimp only
  rw [happ]
  by_cases h : errs = [] <;> simp [h, liftPy]

theorem convCall_rangeC_str (s : String) :
    convCall .rangeC (.str s)
      = match rangeMatch s.data with
        | some (a, b) => .ok (.range a b)
        | none =>
            .error (.valueError,
              "did not match '" ++ rangePat ++ "': '" ++ s ++ "'") := rfl

/-! ### Claim theorems -/

/-- C2 counterexample: a call that supplies more positional values than
required-plus-optional parameters raises `StopIteration` from the exhausted
fallback iterator even though a parameter's conversion failed — so, as
universally stated over every call, "the aggregated error is raised iff at
least one conversion failed" is false. -/
theorem c2_overflow_beats_aggregation :
    isVErr (convCall (.filter (fun _ => false) none) (.str "a")) = true ∧
    (deduceCall ⟨[("x", .filter (fun _ => false) none)], []⟩
        (fun _ _ => .ok .pyNone) [.str "a", .str "b"] []).1
      = .error (.exc .stopIteration "") :=
  ⟨rfl, rfl⟩

/-- C2 (amended): provided no more positional values are supplied than
required plus optional parameters (so the fallback iterator is not
exhausted) and every matched converter follows the failure contract, the
aggregated `ConversionError` is raised iff at least one parameter's
conversion failed; its per-parameter map has exactly one entry per distinct
failing name and none for any other name; and when it is raised the
underlying function is never invoked (the call's outcome is that same error
for every function body). -/
theorem c2_aggregated_error_exactness (plan : DeducePlan) (args : List Val)
    (kwargs : List (String × Val))
    (hlen : args.length ≤ plan.positional.length + plan.keyword.length)
    (hargs : ∀ p ∈ List.zip (plan.positional ++ plan.keyword) args,
      okOrVE (convCall p.1.2 p.2))
    (hkw : ∀ p ∈ kwargs, okOrVE (convCall (kwEff plan.keyword p.1) p.2)) :
    ((∃ errs, (deduceConvert plan args kwargs).1 = .error (.convError errs)) ↔
      (failedArgNames plan.positional plan.keyword args ≠ [] ∨
        failedKwNames plan.keyword kwargs ≠ [])) ∧
    (∀ errs, (deduceConvert plan args kwargs).1 = .error (.convError errs) →
      (∀ x, x ∈ dKeys errs ↔
        (x ∈ failedArgNames plan.positional plan.keyword args ∨
          x ∈ failedKwNames plan.keyword kwargs)) ∧
      (dKeys errs).Nodup) ∧
    (∀ func errs,
      (deduceConvert plan args kwargs).1 = .error (.convError errs) →
      (deduceCall plan func args kwargs).1 = .error (.convError errs)) := by
  obtain ⟨errs1, hA, hiff1, hnd1⟩ :=
    convertArgs_spec args plan.positional plan.keyword [] [] hlen hargs
  obtain ⟨acc2, errs2, hB, hiff2, hnd2⟩ :=
    convertKwargs_spec kwargs plan.keyword plan.keyword [] errs1
      (fun _ => rfl) hkw
  have hC := deduceConvert_eq plan args kwargs _ _ _ _ _ hA hB
  have hmem : ∀ x, x ∈ dKeys errs2 ↔
      (x ∈ failedArgNames plan.positional plan.keyword args ∨
        x ∈ failedKwNames plan.keyword kwargs) := by
    intro x
    rw [hiff2 x, hiff1 x]
    simp [dKeys]
  have hnodup : (dKeys errs2).Nodup := hnd2 (hnd1 (by simp [dKeys]))
  refine ⟨?_, ?_, ?_⟩
  · constructor
    · rintro ⟨errs, herrs⟩
      by_cases h : errs2 = []
      · rw [hC] at herrs
        simp [h] at herrs
      · by_contra hno
        push_neg at hno
        obtain ⟨h1, h2⟩ := hno
        apply h
        have : dKeys errs2 = [] := by
          refine List.eq_nil_iff_forall_not_mem.mpr ?_
          intro x hx
          rcases (hmem x).mp hx with hx1 | hx2
          · rw [h1] at hx1
            simp at hx1
          · rw [h2] at hx2
            simp at hx2
        cases errs2 with
        | nil => rfl
        | cons e es => simp [dKeys] at this
    · intro h
      have hne : errs2 ≠ [] := by
        intro hnil
        subst hnil
        rcases h with h1 | h2
        · apply h1
          refine List.eq_nil_iff_forall_not_mem.mpr ?_
          intro x hx
          have := (hmem x).mpr (Or.inl hx)
          simp [dKeys] at this
        · apply h2
          refine List.eq_nil_iff_forall_not_mem.mpr ?_
          intro x hx
          have := (hmem x).mpr (Or.inr hx)
          simp [dKeys] at this
      refine ⟨errs2, ?_⟩
      rw [hC]
      simp [hne]
  · intro errs herrs
    rw [hC] at herrs
    by_cases h : errs2 = []
    · simp [h] at herrs
    · simp [h] at herrs
      subst herrs
      exact ⟨hmem, hnodup⟩
  · intro func errs herrs
    rw [hC] at herrs
    by_cases h : errs2 = []
    · simp [h] at herrs
    · simp [h] at herrs
      subst herrs
      have hcall := deduceCall_of_convError plan func args kwargs
        (.convError errs2)
        (plan.keyword ++ newIdentEntries (dKeys plan.keyword) kwargs)
        (by rw [hC]; simp [h])
      rw [hcall]

/-- Witness for C2 at concrete inputs: one failing required parameter and
one valid keyword produce the aggregated error. -/
theorem c2_aggregated_error_exactness_witness :
    ∃ errs,
      (deduceConvert ⟨[("x", docBoolEquiv)], [("y", docBoolEquiv)]⟩
        [.str "nope"] [("y", .str "yes")]).1 = .error (.convError errs) := by
  refine (c2_aggregated_error_exactness
    ⟨[("x", docBoolEquiv)], [("y", docBoolEquiv)]⟩
    [.str "nope"] [("y", .str "yes")] (by decide) ?_ ?_).1.mpr ?_
  · intro p hp
    have hp2 : p = ((("x" : String), docBoolEquiv), Val.str "nope") := by
      simpa using hp
    subst hp2
    exact Or.inr ⟨"no equivalent for 'nope'", rfl⟩
  · intro p hp
    have hp2 : p = (("y" : String), Val.str "yes") := by
      simpa using hp
    subst hp2
    exact Or.inl ⟨.bool true, rfl⟩
  · left
    decide

/-- C7 counterexample: with one required and zero optional parameters, a
third positional value makes the call raise `StopIteration` from the
exhausted fallback iterator *before* the underlying function runs — even a
function body that would itself raise the claimed "too many positional
arguments" error is never reached, so the excess does not surface as an
error raised by the underlying function call. -/
theorem c7_overflow_raises_stopiteration_not_func :
    (deduceCall ⟨[("x", Conv.identity)], []⟩
        (fun _ _ => .error (.typeError, "too many positional arguments"))
        [.int 1, .int 2] []).1
      = .error (.exc .stopIteration "") ∧
    (deduceCall ⟨[("x", Conv.identity)], []⟩
        (fun _ _ => .error (.typeError, "too many positional arguments"))
        [.int 1, .int 2] []).1
      ≠ .error (.exc .typeError "too many positional arguments") :=
  ⟨rfl, fun h => ExcKind.noConfusion (PyExc.exc.inj (Except.error.inj h)).1⟩

/-- C7 (amended): excess positional values beyond the required plan are
matched against the keyword-converter mapping in its iteration order — the
i-th positional value is converted by the i-th entry of
`positional_converters ++ keyword_converters` — and when the positional
values outnumber required plus optional entries, the call raises an
uncaught `StopIteration` from the exhausted fallback iterator during
conversion (for every function body, which is therefore never invoked); the
excess is neither a conversion failure nor silently swallowed. -/
theorem c7_excess_positional_matching (plan : DeducePlan)
    (func : List Val → List (String × Val) → PyResult Val)
    (args : List Val) (kwargs : List (String × Val))
    (hok : ∀ p ∈ List.zip (plan.positional ++ plan.keyword) args,
      okOrVE (convCall p.1.2 p.2)) :
    (args.length ≤ plan.positional.length + plan.keyword.length →
      ∃ errs2, convertArgs plan.positional plan.keyword args [] []
        = .ok (convertedOf plan.positional plan.keyword args, errs2)) ∧
    (plan.positional.length + plan.keyword.length < args.length →
      (deduceCall plan func args kwargs).1
        = .error (.exc .stopIteration "")) := by
  constructor
  · intro hlen
    obtain ⟨errs2, heq, _, _⟩ :=
      convertArgs_spec args plan.positional plan.keyword [] [] hlen hok
    exact ⟨errs2, by simpa using heq⟩
  · intro hlen
    have hA := convertArgs_overflow args plan.positional plan.keyword [] []
      hlen hok
    have hconv := deduceConvert_argsRaise plan args kwargs _ _ hA
    rw [deduceCall_of_convError plan func args kwargs _ _ hconv]

/-- Witness for C7 at concrete inputs: two excess positional values are
converted by the two keyword-converter entries in order (the second one
failing under `docBoolEquiv`), and a third excess value triggers
`StopIteration`. -/
theorem c7_excess_positional_matching_witness :
    (∃ errs2, convertArgs [("x", Conv.identity)]
        [("y", Conv.identity), ("z", docBoolEquiv)]
        [.int 7, .int 8, .str "nope"] [] []
      = .ok ([.int 7, .int 8], errs2)) ∧
    (deduceCall ⟨[("x", Conv.identity)], []⟩ (fun _ _ => .ok .pyNone)
        [.int 1, .int 2] []).1 = .error (.exc .stopIteration "") := by
  constructor
  · have h := (c7_excess_positional_matching
      ⟨[("x", Conv.identity)], [("y", Conv.identity), ("z", docBoolEquiv)]⟩
      (fun _ _ => .ok .pyNone) [.int 7, .int 8, .str "nope"] [] ?_).1
        (by decide)
    · obtain ⟨errs2, heq⟩ := h
      exact ⟨errs2, heq.trans rfl⟩
    · intro p hp
      simp [List.zip_cons_cons] at hp
      rcases hp with hp | hp | hp
      all_goals
        rw [show p = _ from hp]
      · exact Or.inl ⟨.int 7, rfl⟩
      · exact Or.inl ⟨.int 8, rfl⟩
      · exact Or.inr ⟨"no equivalent for 'nope'", rfl⟩
  · refine (c7_excess_positional_matching ⟨[("x", Conv.identity)], []⟩
      (fun _ _ => .ok .pyNone) [.int 1, .int 2] [] ?_).2 (by decide)
    intro p hp
    have hp2 : p = ((("x" : String), Conv.identity), Val.int 1) := by
      simpa using hp
    subst hp2
    exact Or.inl ⟨.int 1, rfl⟩

/-- C9 counterexample: calling the wrapped function with a keyword argument
whose name is absent from the keyword-converter mapping mutates the shared
`defaultdict` — after a call with keyword `z`, the mapping (empty at wrap
time) now holds an identity entry for `z` — so the precomputed plan is not
unchanged after every call. -/
theorem c9_call_mutates_keyword_map :
    (deduceCall ⟨[], []⟩ (fun _ _ => .ok .pyNone) [] [("z", .int 3)]).2
      = [("z", Conv.identity)] ∧
    (deduceCall ⟨[], []⟩ (fun _ _ => .ok .pyNone) [] [("z", .int 3)]).2
      ≠ [] :=
  ⟨rfl, fun h => List.noConfusion h⟩

/-- C9 (amended): for a call under the converter failure contract with no
positional overflow, the positional plan is read-only, the existing
keyword-converter entries and their order are preserved, and calling
appends exactly one `(name, identity)` entry per first occurrence of a
supplied keyword name not already present in the mapping — the plan is
otherwise unchanged. -/
theorem c9_keyword_map_after_call (plan : DeducePlan) (args : List Val)
    (kwargs : List (String × Val))
    (hlen : args.length ≤ plan.positional.length + plan.keyword.length)
    (hargs : ∀ p ∈ List.zip (plan.positional ++ plan.keyword) args,
      okOrVE (convCall p.1.2 p.2))
    (hkw : ∀ p ∈ kwargs, okOrVE (convCall (kwEff plan.keyword p.1) p.2)) :
    (deduceConvert plan args kwargs).2
      = plan.keyword ++ newIdentEntries (dKeys plan.keyword) kwargs := by
  obtain ⟨errs1, hA, _, _⟩ :=
    convertArgs_spec args plan.positional plan.keyword [] [] hlen hargs
  obtain ⟨acc2, errs2, hB, _, _⟩ :=
    convertKwargs_spec kwargs plan.keyword plan.keyword [] errs1
      (fun _ => rfl) hkw
  rw [deduceConvert_eq plan args kwargs _ _ _ _ _ hA hB]

/-- Witness for C9 at concrete inputs: a known keyword leaves the mapping
alone, an unknown one appends an identity entry. -/
theorem c9_keyword_map_after_call_witness :
    (deduceConvert ⟨[], [("y", docBoolEquiv)]⟩ []
        [("z", .int 3), ("y", .str "yes")]).2
      = [("y", docBoolEquiv), ("z", Conv.identity)] := by
  have h := c9_keyword_map_after_call ⟨[], [("y", docBoolEquiv)]⟩ []
    [("z", .int 3), ("y", .str "yes")] (by decide) ?_ ?_
  · rw [h]
    rfl
  · intro p hp
    simp [List.zip] at hp
  · intro p hp
    simp at hp
    rcases hp with hp | hp
    all_goals rw [show p = _ from hp]
    · exact Or.inl ⟨.int 3, rfl⟩
    · exact Or.inl ⟨.bool true, rfl⟩

/-- C1: on the success path — binding succeeds and every resolved converter
succeeds on its bound value — the wrapped function returns exactly the
underlying function applied to the converted bound arguments (positional
and keyword values alike, after `apply_defaults`), with no added behavior:
the outcome is the function body's own result. -/
theorem c1_success_path (params : List LParam) (d : Registry)
    (func : List (String × Val) → PyResult Val) (args : List Val)
    (kwargs : List (String × Val)) (bound : List (String × Val))
    (hnodup : (params.map LParam.name).Nodup)
    (hbind : boundArguments params args kwargs = .ok bound)
    (hsucc : ∀ q ∈ buildConverters params d, ∀ v, alookup bound q.1 = some v →
      ∃ w, cokCall q.2 v = .ok w) :
    limierDeduceCall params d func args kwargs
      = liftPy (func (applyAll (buildConverters params d) bound)) := by
  have hkeys : dKeys bound = params.map LParam.name :=
    assignParams_keys params args kwargs bound (boundArguments_ok _ _ _ _ hbind)
  have hnodupB : (dKeys bound).Nodup := by
    rw [hkeys]
    exact hnodup
  have hnodupC : (dKeys (buildConverters params d)).Nodup :=
    (buildConverters_keys_sublist params d).nodup hnodup
  have hpres : ∀ q ∈ buildConverters params d, q.1 ∈ dKeys bound := by
    intro q hq
    rw [hkeys]
    exact (buildConverters_keys_sublist params d).subset
      (List.mem_map_of_mem Prod.fst hq)
  have happ := applyConverters_spec (buildConverters params d) bound []
    hnodupC hnodupB hpres hsucc
  rw [limierDeduceCall_eq params d func args kwargs bound _ _ hbind happ]
  simp

/-- Witness for C1 at concrete inputs: one annotated parameter converted by
the boolean table; the wrapper returns the function body's result on the
converted value. -/
theorem c1_success_path_witness :
    limierDeduceCall [⟨"x", some .kBool, none⟩] [(.kBool, docBoolEquiv)]
        (fun bound =>
          match alookup bound "x" with
          | some v => .ok v
          | none => .error (.keyError, "x"))
        [.str "yes"] []
      = .ok (.bool true) := by
  have h := c1_success_path [⟨"x", some .kBool, none⟩] [(.kBool, docBoolEquiv)]
    (fun bound =>
      match alookup bound "x" with
      | some v => .ok v
      | none => .error (.keyError, "x"))
    [.str "yes"] [] [("x", .str "yes")] (by decide) rfl ?_
  · rw [h]
    rfl
  · intro q hq v hv
    have hq2 : q = (("x" : String), CoK.conv docBoolEquiv) := by
      simpa [buildConverters, retrieve, regLookup] using hq
    subst hq2
    have hv2 : v = Val.str "yes" := by
      have h2 := hv
      simp [alookup] at h2
      exact h2.symm
    subst hv2
    exact ⟨.bool true, rfl⟩

/-- C10: in the `limier` evolution, an omitted annotated optional parameter
has its declared default passed through its resolved converter; when the
converter rejects the default (and every other conversion succeeds, i.e.
the caller supplied only valid arguments), the call raises the aggregated
`ConversionError` keyed by exactly that parameter's name. -/
theorem c10_default_value_converted (pre post : List LParam) (p : LParam)
    (d : Registry) (func : List (String × Val) → PyResult Val)
    (args : List Val) (kwargs : List (String × Val))
    (bound : List (String × Val)) (a : Key) (dv : Val) (m : String)
    (hnodup : ((pre ++ p :: post).map LParam.name).Nodup)
    (hbind : boundArguments (pre ++ p :: post) args kwargs = .ok bound)
    (hann : p.ann = some a) (hdflt : p.dflt = some dv)
    (hkw : alookup kwargs p.name = none)
    (hlen : args.length ≤ pre.length)
    (hfail : cokCall (retrieve d a) dv = .error (.valueError, m))
    (hothers : ∀ q ∈ buildConverters (pre ++ p :: post) d, q.1 ≠ p.name →
      ∀ v, alookup bound q.1 = some v → ∃ w, cokCall q.2 v = .ok w) :
    limierDeduceCall (pre ++ p :: post) d func args kwargs
      = .error (.convError [(p.name, m)]) := by
  have hkeys : dKeys bound = (pre ++ p :: post).map LParam.name :=
    assignParams_keys _ args kwargs bound (boundArguments_ok _ _ _ _ hbind)
  have hnodupB : (dKeys bound).Nodup := by
    rw [hkeys]
    exact hnodup
  have hnodupC : (dKeys (buildConverters (pre ++ p :: post) d)).Nodup :=
    (buildConverters_keys_sublist _ d).nodup hnodup
  have hpres : ∀ q ∈ buildConverters (pre ++ p :: post) d,
      q.1 ∈ dKeys bound := by
    intro q hq
    rw [hkeys]
    exact (buildConverters_keys_sublist _ d).subset
      (List.mem_map_of_mem Prod.fst hq)
  have hdisj : ∀ q ∈ pre, q.name ≠ p.name := by
    intro q hq heq
    rw [List.map_append] at hnodup
    have hd := List.disjoint_of_nodup_append hnodup
    exact hd (heq ▸ List.mem_map_of_mem LParam.name hq)
      (by simp [List.map_cons])
  have hpdv : alookup bound p.name = some dv :=
    assignParams_default_lookup pre p post args kwargs bound dv
      (boundArguments_ok _ _ _ _ hbind) hlen hkw hdflt hdisj
  have hmem : (p.name, retrieve d a) ∈ buildConverters (pre ++ p :: post) d :=
    mem_buildConverters _ d p a
      (List.mem_append_right pre (List.mem_cons_self p post)) hann
  have hfail2 : ∀ v, alookup bound p.name = some v →
      cokCall (retrieve d a) v = .error (.valueError, m) := by
    intro v hv
    rw [hpdv] at hv
    rw [← Option.some.inj hv]
    exact hfail
  obtain ⟨bound2, happ⟩ := applyConverters_one_fail
    (buildConverters (pre ++ p :: post) d) bound [] p.name (retrieve d a) m
    hnodupC hnodupB hpres hmem hfail2 hothers
  rw [limierDeduceCall_eq _ d func args kwargs bound bound2 _ hbind happ]
  simp [dictSet]

/-- Witness for C10 at concrete inputs: `y` is optional with default
`"maybe"` and annotated with the boolean table, the call supplies only `x`,
and the wrapper raises the aggregated error keyed `"y"` for the rejected
default. -/
theorem c10_default_value_converted_witness :
    limierDeduceCall
        [⟨"x", none, none⟩, ⟨"y", some .kBool, some (.str "maybe")⟩]
        [(.kBool, docBoolEquiv)] (fun _ => .ok .pyNone) [.int 1] []
      = .error (.convError [("y", "no equivalent for 'maybe'")]) := by
  have h := c10_default_value_converted [⟨"x", none, none⟩] []
    ⟨"y", some .kBool, some (.str "maybe")⟩ [(.kBool, docBoolEquiv)]
    (fun _ => .ok .pyNone) [.int 1] []
    [("x", .int 1), ("y", .str "maybe")] .kBool (.str "maybe")
    "no equivalent for 'maybe'" (by decide) rfl rfl rfl rfl (by decide) rfl ?_
  · exact h
  · intro q hq hne v hv
    have hq2 : q = (("y" : String), CoK.conv docBoolEquiv) := by
      simpa [buildConverters, retrieve, regLookup] using hq
    rw [hq2] at hne
    simp at hne

/-- C5: the Range converter maps `"1:5"`, `"1..5"`, `"1...5"` to the
half-open interval `range(1, 5)` and fails with a conversion failure
(`ValueError`) on `"abc"`; in general, for all naturals `min`, `max` it
accepts `"min:max"`, `"min..max"`, `"min...max"` (decimal numerals) and
produces `range(min, max)`. -/
theorem c5_range_converter :
    convCall .rangeC (.str "1:5") = .ok (.range 1 5) ∧
    convCall .rangeC (.str "1..5") = .ok (.range 1 5) ∧
    convCall .rangeC (.str "1...5") = .ok (.range 1 5) ∧
    isVErr (convCall .rangeC (.str "abc")) = true ∧
    (∀ mn mx : Nat,
      convCall .rangeC (.str (decRepr mn ++ ":" ++ decRepr mx))
          = .ok (.range mn mx) ∧
      convCall .rangeC (.str (decRepr mn ++ ".." ++ decRepr mx))
          = .ok (.range mn mx) ∧
      convCall .rangeC (.str (decRepr mn ++ "..." ++ decRepr mx))
          = .ok (.range mn mx)) := by
  refine ⟨rfl, rfl, rfl, rfl, fun mn mx => ⟨?_, ?_, ?_⟩⟩
  · have hdata : (decRepr mn ++ ":" ++ decRepr mx).data
        = decDigits mn ++ ':' :: decDigits mx := by
      rw [String.data_append, String.data_append]
      show (decDigits mn ++ [':']) ++ decDigits mx = _
      simp
    rw [convCall_rangeC_str, hdata, rangeMatch_colon]
  · have hdata : (decRepr mn ++ ".." ++ decRepr mx).data
        = decDigits mn ++ List.replicate 2 '.' ++ decDigits mx := by
      rw [String.data_append, String.data_append]
      rfl
    rw [convCall_rangeC_str, hdata, rangeMatch_dots mn mx 2 (Or.inl rfl)]
  · have hdata : (decRepr mn ++ "..." ++ decRepr mx).data
        = decDigits mn ++ List.replicate 3 '.' ++ decDigits mx := by
      rw [String.data_append, String.data_append]
      rfl
    rw [convCall_rangeC_str, hdata, rangeMatch_dots mn mx 3 (Or.inr rfl)]

/-- C6: a `Transform` configured with underlying failure kind `E` returns the
transformation's result unchanged on success, re-raises an exception of kind
`E` as `ValueError` carrying the original message, and lets any exception of
a different kind propagate unmodified. -/
theorem c6_transform_failure_policy (f : Val → PyResult Val) (E : ExcKind)
    (x : Val) :
    (∀ v, f x = .ok v → convCall (.transform f E) x = .ok v) ∧
    (∀ m, f x = .error (E, m) →
      convCall (.transform f E) x = .error (.valueError, m)) ∧
    (∀ k m, f x = .error (k, m) → k ≠ E →
      convCall (.transform f E) x = .error (k, m)) := by
  refine ⟨fun v h => ?_, fun m h => ?_, fun k m h hk => ?_⟩
  · simp [convCall, h]
  · simp [convCall, h]
  · simp [convCall, h, hk]

/-- Witness for C6 at concrete inputs: a transformation raising the
configured kind is normalized to `ValueError`, a transformation raising a
different kind propagates unmodified. -/
theorem c6_transform_failure_policy_witness :
    convCall (.transform (fun _ => .error (.invalidOperation, "bad digit"))
        .invalidOperation) (.str "oops")
      = .error (.valueError, "bad digit") ∧
    convCall (.transform (fun _ => .error (.typeError, "boom"))
        .invalidOperation) (.str "oops")
      = .error (.typeError, "boom") :=
  ⟨(c6_transform_failure_policy _ _ _).2.1 "bad digit" rfl,
   (c6_transform_failure_policy _ _ _).2.2 .typeError "boom" rfl (by simp)⟩

/-- Evaluation of a two-converter chain: the `reduce` composes the two
calls, and the surrounding `Transform` (caught kind `ValueError`) re-raises
a `ValueError` with the same message and lets other kinds through. -/
theorem chain2_eval (reg : Registry) (a b : Conv) (x : Val) :
    convCall (limierChain reg [.conv a, .conv b]) x =
      match (convCall a x).bind (convCall b) with
      | .ok w => .ok w
      | .error (k, m) =>
          if k = ExcKind.valueError then .error (.valueError, m)
          else .error (k, m) := rfl

/-- C4: `chain(a, b)` applies `b` after `a`: it returns `b(a(x))` when both
stages succeed, raises `a`'s failure when `a` fails (for any second stage,
which is therefore never invoked), and raises `b`'s failure when `a`
succeeds but `b` fails. -/
theorem c4_chain_two_stages (reg : Registry) (a b : Conv) (x : Val) :
    (∀ y z, convCall a x = .ok y → convCall b y = .ok z →
      convCall (limierChain reg [.conv a, .conv b]) x = .ok z) ∧
    (∀ m, convCall a x = .error (.valueError, m) →
      ∀ b2 : Conv,
        convCall (limierChain reg [.conv a, .conv b2]) x
          = .error (.valueError, m)) ∧
    (∀ y m, convCall a x = .ok y → convCall b y = .error (.valueError, m) →
      convCall (limierChain reg [.conv a, .conv b]) x
        = .error (.valueError, m)) := by
  refine ⟨fun y z ha hb => ?_, fun m ha b2 => ?_, fun y m ha hb => ?_⟩
  · rw [chain2_eval, ha]
    simp [Except.bind, hb]
  · rw [chain2_eval reg a b2, ha]
    simp [Except.bind]
  · rw [chain2_eval, ha]
    simp [Except.bind, hb]

/-- Witness for C4 at concrete inputs: chaining the documented boolean table
after identity converts `"yes"` to `True`; a failing first stage surfaces
its own failure for any second stage. -/
theorem c4_chain_two_stages_witness :
    convCall (limierChain [] [.conv .identity, .conv docBoolEquiv])
        (.str "yes") = .ok (.bool true) ∧
    convCall (limierChain [] [.conv docBoolEquiv, .conv .identity])
        (.str "sure") = .error (.valueError, "no equivalent for 'sure'") :=
  ⟨(c4_chain_two_stages [] .identity docBoolEquiv (.str "yes")).1
      (.str "yes") (.bool true) rfl rfl,
   (c4_chain_two_stages [] docBoolEquiv .identity (.str "sure")).2.1
      "no equivalent for 'sure'" rfl .identity⟩

/-- C3 counterexample: on the `limier` evolution, `Registry.get` applied to
an unregistered key returns the key itself *unwrapped* — not a `Transform`
(not a converter at all). -/
theorem c3_unregistered_key_not_wrapped :
    limierGet [] (.key (.kOther 0)) = .key (.kOther 0) ∧
    (limierGet [] (.key (.kOther 0))).isConv = false :=
  ⟨rfl, rfl⟩

/-- C3 amended: for a registered key both evolutions of `Registry.get`
return the registered converter; for an unregistered key `colon`'s `get`
wraps the key as an ad-hoc `Transform` (caught kind `ValueError`), while
`limier`'s `get` returns the key itself unwrapped. -/
theorem c3_get_fallback_policy (reg : Registry) (k : Key) :
    (∀ c, regLookup reg k = some c →
      limierGet reg (.key k) = .conv c ∧ colonGet reg k = c) ∧
    (regLookup reg k = none →
      limierGet reg (.key k) = .key k ∧
      colonGet reg k = .transform (keyCall k) .valueError) := by
  refine ⟨fun c h => ?_, fun h => ?_⟩
  · constructor <;> simp [limierGet, colonGet, h]
  · constructor <;> simp [limierGet, colonGet, h]

/-- Witness for C3 amended at concrete inputs. -/
theorem c3_get_fallback_policy_witness :
    limierGet [(.kBool, docBoolEquiv)] (.key .kBool) = .conv docBoolEquiv ∧
    colonGet [] (.kOther 7)
      = .transform (keyCall (.kOther 7)) .valueError :=
  ⟨((c3_get_fallback_policy [(.kBool, docBoolEquiv)] .kBool).1
      docBoolEquiv rfl).1,
   ((c3_get_fallback_policy [] (.kOther 7)).2 rfl).2⟩

/-- C8: the `Equiv` converter does return the output value of the class
containing the input when the table is written in `Equiv`'s documented
convention (grouped raw inputs as keys), but the default boolean table of
`limier/aliases.py` is written in the opposite (`colon.Mapping`) convention
— output values as keys, sets of raw strings as values — so the shipped
`bool` alias fails with `ValueError` on every one of `"true"`, `"yes"`,
`"1"`, `"false"`, `"no"`, `"0"` instead of producing the booleans. -/
theorem c8_bool_alias_fails_on_raw_inputs :
    convCall docBoolEquiv (.str "true") = .ok (.bool true) ∧
    convCall docBoolEquiv (.str "yes") = .ok (.bool true) ∧
    convCall docBoolEquiv (.str "1") = .ok (.bool true) ∧
    convCall docBoolEquiv (.str "false") = .ok (.bool false) ∧
    convCall docBoolEquiv (.str "no") = .ok (.bool false) ∧
    convCall docBoolEquiv (.str "0") = .ok (.bool false) ∧
    convCall limierBoolAlias (.str "true")
      = .error (.valueError, "no equivalent for 'true'") ∧
    convCall limierBoolAlias (.str "yes")
      = .error (.valueError, "no equivalent for 'yes'") ∧
    convCall limierBoolAlias (.str "1")
      = .error (.valueError, "no equivalent for '1'") ∧
    convCall limierBoolAlias (.str "false")
      = .error (.valueError, "no equivalent for 'false'") :=
  ⟨rfl, rfl, rfl, rfl, rfl, rfl, rfl, rfl, rfl, rfl⟩

end Limier
